import Mathlib

/-!
Verification development for the `gop` pretty-printer's formatter
(`format.go`): the token data model, the `Format` rendering pass, the
`readableStr` multi-line string reflow and the `replaceEscaped`
escape-sequence state machine, together with theorems settling the
specification claims about them.

Strings are modelled as Lean `String` (Go rune iteration corresponds to
`String.data`).  Go's `strings.Repeat`, which panics on a negative count,
is modelled as an `Option`-valued function, so `Format` returns
`Option String`: `none` models the panic reachable only on malformed
token sequences.
-/

namespace gop

/-- Token kinds used by `format.go` (Go type `Type`; the constant names are
the ones the formatter dispatches on). -/
inductive TokenType where
  | TypeName | Bool | Rune | Byte | String | Number | Func | Comment | Nil | Error | Chan
  | SliceOpen | SliceItem | SliceClose
  | MapOpen | MapKey | MapClose
  | StructOpen | StructKey | StructClose
  | Colon | InlineComma | Comma
deriving DecidableEq

/-- A token: kind plus literal text (Go `Token{Type, Literal}`; the field
`Type` is spelled `Typ` because `Type` is reserved in Lean). -/
structure Token where
  Typ : TokenType
  Literal : String
deriving DecidableEq

/-- Modelled from the spec: a style is an immutable pair of opaque set and
unset marker strings; the neutral style has empty markers.  (The style
primitives live outside `format.go`; marker values follow the ANSI codes
visible in the repository's tests.) -/
structure Style where
  Set : String
  Unset : String
deriving DecidableEq

/-- Modelled from the spec: the neutral style, the identity for wrapping. -/
def None : Style := ⟨"", ""⟩

def Red : Style := ⟨"\x1b[31m", "\x1b[39m"⟩

def Green : Style := ⟨"\x1b[32m", "\x1b[39m"⟩

def Yellow : Style := ⟨"\x1b[33m", "\x1b[39m"⟩

def Blue : Style := ⟨"\x1b[34m", "\x1b[39m"⟩

def Magenta : Style := ⟨"\x1b[35m", "\x1b[39m"⟩

def Cyan : Style := ⟨"\x1b[36m", "\x1b[39m"⟩

def White : Style := ⟨"\x1b[37m", "\x1b[39m"⟩

def Underline : Style := ⟨"\x1b[4m", "\x1b[24m"⟩

/-- Modelled from the spec: `wrap(text, style)` concatenates
`style.set + text + style.unset` (Go `gop.S`). -/
def S (str : String) (s : Style) : String := s.Set ++ str ++ s.Unset

/-- Modelled from the spec: apply an ordered list of styles to a literal by
wrapping the text in each style's marker pair in sequence (Go `Stylize`,
which lives outside `format.go`). -/
def Stylize (str : String) (styles : List Style) : String := styles.foldl S str

/-- A theme maps a token kind to an ordered list of styles (Go `Theme`). -/
def Theme : Type := TokenType → List Style

/-- The default colorized theme (`ThemeDefault` in `format.go`). -/
def ThemeDefault : Theme := fun t =>
  match t with
  | .TypeName => [Cyan]
  | .Bool | .Chan => [Blue]
  | .Rune | .Byte | .String => [Yellow]
  | .Number => [Green]
  | .Func => [Magenta]
  | .Comment => [White]
  | .Nil => [Red]
  | .Error => [Underline, Red]
  | _ => [None]

/-- The no-styling theme (`ThemeNone` in `format.go`). -/
def ThemeNone : Theme := fun _ => [None]

/-- The four-space indent unit (`indentUnit` in `format.go`). -/
def indentUnit : String := "    "

/-- Membership test used by `Format` (Go `oneOf`). -/
def oneOf (t : TokenType) (list : List TokenType) : Bool := list.contains t

/-- The three container-open kinds `Format` counts. -/
def opens : List TokenType := [.SliceOpen, .MapOpen, .StructOpen]

/-- The three container-close kinds `Format` counts. -/
def closes : List TokenType := [.SliceClose, .MapClose, .StructClose]

/-- Go `strings.Contains(s, c)` for a single-character needle: character
containment in the rune sequence. -/
def strContainsChar (s : String) (c : Char) : Bool := s.data.contains c

/-- The backquote character (used instead of a backtick character literal). -/
def backquote : Char := Char.ofNat 96

/-- Go `strings.HasSuffix(s, suffix)`. -/
def goHasSuffix (s suffix : String) : Bool := suffix.data.isSuffixOf s.data

/-- Go `s[:len(s)-1]` at the one place `Format` uses it (dropping a trailing
one-byte newline): drop the last character. -/
def goDropLastChar (s : String) : String := String.mk s.data.dropLast

/-- Go `strings.Repeat(s, n)` with a Go `int` count: panics (modelled as
`none`) when the count is negative. -/
def goRepeat (s : String) (n : Int) : Option String :=
  if n < 0 then none else some (String.join (List.replicate n.toNat s))

/-- The three states of the `replaceEscaped` scanner (Go's local `State`
constants `init`, `preMatch`, `match`). -/
inductive REPhase where
  | initP | preMatchP | matchP
deriving DecidableEq

/-- The mutable scanner data of Go `replaceEscaped`: current state, the
output builder, the pending buffer, and the replaced flag. -/
structure REConfig where
  phase : REPhase
  out : List Char
  buf : List Char
  has : Bool
deriving DecidableEq

/-- One step of the `replaceEscaped` state machine: the Go `switch` over the
state with the `onInit`, `onPreMatch` and `onEscape` transitions. -/
def reStep (escaped : Char) (new : List Char) (cfg : REConfig) (r : Char) : REConfig :=
  let onInit : Char → REConfig := fun r =>
    { phase := .initP, out := cfg.out ++ cfg.buf ++ [r], buf := [], has := cfg.has }
  let onPreMatch : REConfig :=
    { phase := .preMatchP, out := cfg.out, buf := ['\\'], has := cfg.has }
  let onEscape : REConfig :=
    { phase := .matchP, out := cfg.out ++ new, buf := [], has := true }
  match cfg.phase with
  | .preMatchP => if r = escaped then onEscape else onInit r
  | .matchP => if r = '\\' then onPreMatch else onInit r
  | .initP => if r = '\\' then onPreMatch else onInit r

/-- Run the scanner over a rune sequence (the Go `for _, r := range s` loop). -/
def reRun (escaped : Char) (new : List Char) (cfg : REConfig) (l : List Char) : REConfig :=
  l.foldl (reStep escaped new) cfg

/-- Go `replaceEscaped(s, escaped, new)`: run the state machine from the
initial configuration and return the built output and the replaced flag
(the pending buffer is discarded, as in the Go code). -/
def replaceEscaped (s : String) (escaped : Char) (new : String) : String × Bool :=
  let fin := reRun escaped new.data { phase := .initP, out := [], buf := [], has := false } s.data
  (String.mk fin.out, fin.has)

/-- Specification-side replacement, following the spec's words: scan for
escape-sequence runs, replace each genuine escape (a backslash immediately
followed by the target character, the backslash not itself escaped) by the
replacement text, pass a backslash followed by any other character through
unchanged (so a doubled backslash consumes both characters and shields the
following character), and drop a trailing lone backslash; the flag records
whether at least one replacement occurred. -/
def replaceEscapedSpec (escaped : Char) (new : List Char) : List Char → List Char × Bool
  | [] => ([], false)
  | c :: rest =>
    if c = '\\' then
      match rest with
      | [] => ([], false)
      | c2 :: rest2 =>
        if c2 = escaped then
          (new ++ (replaceEscapedSpec escaped new rest2).1, true)
        else
          ('\\' :: c2 :: (replaceEscapedSpec escaped new rest2).1,
            (replaceEscapedSpec escaped new rest2).2)
    else
      (c :: (replaceEscapedSpec escaped new rest).1, (replaceEscapedSpec escaped new rest).2)

/-- Whether a rune sequence contains a genuine escape of the target
character: a backslash immediately followed by it, the backslash not
itself escaped. -/
def hasGenuineEscape (escaped : Char) : List Char → Bool
  | [] => false
  | c :: rest =>
    if c = '\\' then
      match rest with
      | [] => false
      | c2 :: rest2 => if c2 = escaped then true else hasGenuineEscape escaped rest2
    else
      hasGenuineEscape escaped rest

/-- Lower-case hexadecimal digit. -/
def hexDigit (n : Nat) : Char :=
  if n < 10 then Char.ofNat (48 + n) else Char.ofNat (87 + n)

/-- Go quoting of one rune as inside `fmt.Sprintf("%#v", s)` for a string
(that is, `strconv.Quote`): named escapes, printable ASCII verbatim, and a
hex escape for other small code points.  This is standard-library
behaviour, not repository code; it is modelled for the character ranges
exercised here. -/
def quoteRune (c : Char) : List Char :=
  if c = '"' then ['\\', '"']
  else if c = '\\' then ['\\', '\\']
  else if c = Char.ofNat 7 then ['\\', 'a']
  else if c = Char.ofNat 8 then ['\\', 'b']
  else if c = Char.ofNat 12 then ['\\', 'f']
  else if c = '\n' then ['\\', 'n']
  else if c = '\r' then ['\\', 'r']
  else if c = '\t' then ['\\', 't']
  else if c = Char.ofNat 11 then ['\\', 'v']
  else if 32 ≤ c.toNat ∧ c.toNat < 127 then [c]
  else if c.toNat < 256 then ['\\', 'x', hexDigit (c.toNat / 16), hexDigit (c.toNat % 16)]
  else [c]

/-- Go `fmt.Sprintf("%#v", s)` for a string: a double-quoted Go literal. -/
def goQuote (s : String) : String :=
  String.mk ('"' :: (s.data.map quoteRune).flatten ++ ['"'])

/-- The raw-literal condition of `readableStr` line 141: the string contains
a newline or a double quote and does not contain a backquote. -/
def rawCondition (s : String) : Bool :=
  (strContainsChar s '\n' || strContainsChar s '"') && !(strContainsChar s backquote)

/-- Go `readableStr(depth, s)` from `format.go`: render a string literal
readably.  Strings satisfying the raw condition are wrapped in backquotes
verbatim; otherwise the string is `%#v`-quoted, genuine tab escapes become
literal tabs, and if a genuine newline escape is present the literal is
rewritten into a string-concatenation continuation one indent level deeper.
`none` models the `strings.Repeat` panic at `depth + 1 < 0`. -/
def readableStr (depth : Int) (s : String) : Option String :=
  if rawCondition s then
    some ("`" ++ s ++ "`")
  else
    let s1 := (replaceEscaped (goQuote s) 't' "\t").1
    (goRepeat indentUnit (depth + 1)).map (fun indent =>
      let r := replaceEscaped s1 'n' ("\\n\" +\n" ++ indent ++ "\"")
      if r.2 then "\"\" +\n" ++ indent ++ r.1 else r.1)

/-- The depth bookkeeping `Format` performs at each token: increment on any
container-open, then decrement when the next token is a container-close. -/
def stepDepth (t : Token) (rest : List Token) (depth : Int) : Int :=
  let d := if oneOf t.Typ opens then depth + 1 else depth
  match rest with
  | t2 :: _ => if oneOf t2.Typ closes then d - 1 else d
  | [] => d

/-- The emission `Format` performs for one token (the `switch t.Type` body),
given the already-adjusted depth and the output accumulated so far.
`none` models a `strings.Repeat` panic on a negative depth. -/
def emit (theme : Theme) (t : Token) (depth : Int) (out : String) : Option String :=
  let styles := theme t.Typ
  match t.Typ with
  | .SliceOpen | .MapOpen | .StructOpen =>
    some (out ++ Stylize t.Literal styles ++ "\n")
  | .SliceItem | .MapKey | .StructKey =>
    (goRepeat indentUnit depth).map (fun ind => out ++ ind)
  | .Colon | .InlineComma | .Chan =>
    some (out ++ Stylize t.Literal styles ++ " ")
  | .Comma =>
    some (out ++ Stylize t.Literal styles ++ "\n")
  | .SliceClose | .MapClose | .StructClose =>
    if goHasSuffix out "\x7b\n" then
      some (goDropLastChar out ++ Stylize t.Literal styles)
    else
      (goRepeat indentUnit depth).map (fun ind => out ++ ind ++ Stylize t.Literal styles)
  | .String =>
    (readableStr depth t.Literal).map (fun rs => out ++ Stylize rs styles)
  | _ =>
    some (out ++ Stylize t.Literal styles)

/-- The left-to-right loop of Go `Format`, threading the depth counter and
the output builder. -/
def formatGo (theme : Theme) : List Token → Int → String → Option String
  | [], _, out => some out
  | t :: rest, depth, out =>
    let d := stepDepth t rest depth
    match emit theme t d out with
    | some out2 => formatGo theme rest d out2
    | none => none

/-- Go `Format(ts, theme)`. -/
def Format (ts : List Token) (theme : Theme) : Option String :=
  formatGo theme ts 0 ""

/-- Number of container-open tokens in a sequence. -/
def opensCount (ts : List Token) : Nat := ts.countP (fun t => oneOf t.Typ opens)

/-- Number of container-close tokens in a sequence. -/
def closesCount (ts : List Token) : Nat := ts.countP (fun t => oneOf t.Typ closes)

/-- Well-formedness of a token sequence as the spec states it: container
open and close tokens are balanced, and in every prefix closes never
outnumber opens (the counting consequence of proper nesting, which is all
the depth counter can observe). -/
def wellFormed (ts : List Token) : Prop :=
  (∀ k, k ≤ ts.length → closesCount (ts.take k) ≤ opensCount (ts.take k))
    ∧ opensCount ts = closesCount ts

/-- The depth counter stays non-negative at every step of the `Format` loop
when started at `d`. -/
def depthInv : Int → List Token → Prop
  | _, [] => True
  | d, t :: rest => 0 ≤ stepDepth t rest d ∧ depthInv (stepDepth t rest d) rest

/-- Go `strings.HasPrefix(s, p)`. -/
def strStartsWith (s p : String) : Bool := p.data.isPrefixOf s.data

/-- A theme that styles every token kind with visible markers; used to
show that the empty-container collapse is not theme-independent. -/
def badTheme : Theme := fun _ => [⟨"<b>", "</b>"⟩]

section ReplaceEscapedLemmas

lemma reRun_cons (e : Char) (n : List Char) (cfg : REConfig) (c : Char) (rest : List Char) :
    reRun e n cfg (c :: rest) = reRun e n (reStep e n cfg c) rest := rfl

lemma reRun_pair (e : Char) (n : List Char) :
    ∀ l : List Char, ∀ out : List Char, ∀ has : Bool,
      ((reRun e n ⟨.initP, out, [], has⟩ l).out = out ++ (replaceEscapedSpec e n l).1
        ∧ (reRun e n ⟨.initP, out, [], has⟩ l).has = (has || (replaceEscapedSpec e n l).2)
        ∧ (reRun e n ⟨.matchP, out, [], has⟩ l).out = out ++ (replaceEscapedSpec e n l).1
        ∧ (reRun e n ⟨.matchP, out, [], has⟩ l).has = (has || (replaceEscapedSpec e n l).2))
      ∧ ((reRun e n ⟨.preMatchP, out, ['\\'], has⟩ l).out
            = out ++ (replaceEscapedSpec e n ('\\' :: l)).1
        ∧ (reRun e n ⟨.preMatchP, out, ['\\'], has⟩ l).has
            = (has || (replaceEscapedSpec e n ('\\' :: l)).2)) := by
  intro l
  induction l with
  | nil =>
    intro out has
    simp [reRun, replaceEscapedSpec]
  | cons c rest ih =>
    intro out has
    constructor
    · by_cases hc : c = '\\'
      · subst hc
        rw [reRun_cons, reRun_cons]
        have hstep : reStep e n ⟨.initP, out, [], has⟩ '\\' = ⟨.preMatchP, out, ['\\'], has⟩ := by
          simp [reStep]
        have hstep2 : reStep e n ⟨.matchP, out, [], has⟩ '\\' = ⟨.preMatchP, out, ['\\'], has⟩ := by
          simp [reStep]
        rw [hstep, hstep2]
        exact ⟨(ih out has).2.1, (ih out has).2.2, (ih out has).2.1, (ih out has).2.2⟩
      · rw [reRun_cons, reRun_cons]
        have hstep : reStep e n ⟨.initP, out, [], has⟩ c = ⟨.initP, out ++ [c], [], has⟩ := by
          simp [reStep, hc]
        have hstep2 : reStep e n ⟨.matchP, out, [], has⟩ c = ⟨.initP, out ++ [c], [], has⟩ := by
          simp [reStep, hc]
        rw [hstep, hstep2]
        have h1 := (ih (out ++ [c]) has).1
        have hs : replaceEscapedSpec e n (c :: rest) =
            (c :: (replaceEscapedSpec e n rest).1, (replaceEscapedSpec e n rest).2) := by
          rw [replaceEscapedSpec.eq_def]
          simp [hc]
        rw [hs]
        refine ⟨?_, ?_, ?_, ?_⟩
        · rw [h1.1]; simp
        · rw [h1.2.1]
        · rw [h1.1]; simp
        · rw [h1.2.1]
    · rw [reRun_cons]
      by_cases hc : c = e
      · subst hc
        have hstep : reStep c n ⟨.preMatchP, out, ['\\'], has⟩ c = ⟨.matchP, out ++ n, [], true⟩ := by
          simp [reStep]
        rw [hstep]
        have h1 := (ih (out ++ n) true).1
        have hs : replaceEscapedSpec c n ('\\' :: c :: rest) =
            (n ++ (replaceEscapedSpec c n rest).1, true) := by
          rw [replaceEscapedSpec.eq_def]
          simp
        rw [hs]
        constructor
        · rw [h1.2.2.1]; simp
        · rw [h1.2.2.2]; simp
      · have hstep : reStep e n ⟨.preMatchP, out, ['\\'], has⟩ c = ⟨.initP, out ++ ['\\', c], [], has⟩ := by
          simp [reStep, hc]
        rw [hstep]
        have h1 := (ih (out ++ ['\\', c]) has).1
        have hs : replaceEscapedSpec e n ('\\' :: c :: rest) =
            ('\\' :: c :: (replaceEscapedSpec e n rest).1, (replaceEscapedSpec e n rest).2) := by
          rw [replaceEscapedSpec.eq_def]
          simp [hc]
        rw [hs]
        constructor
        · rw [h1.1]; simp
        · rw [h1.2.1]

lemma replaceEscaped_eq_spec (s : String) (e : Char) (n : String) :
    replaceEscaped s e n
      = (String.mk (replaceEscapedSpec e n.data s.data).1, (replaceEscapedSpec e n.data s.data).2) := by
  have h := (reRun_pair e n.data s.data [] false).1
  show (String.mk (reRun e n.data ⟨.initP, [], [], false⟩ s.data).out,
        (reRun e n.data ⟨.initP, [], [], false⟩ s.data).has)
      = (String.mk (replaceEscapedSpec e n.data s.data).1, (replaceEscapedSpec e n.data s.data).2)
  rw [h.1, h.2.1]
  simp

lemma replaceEscapedSpec_snd (e : Char) (n : List Char) :
    ∀ l : List Char, (replaceEscapedSpec e n l).2 = hasGenuineEscape e l := by
  intro l
  induction l using replaceEscapedSpec.induct e n with
  | case1 => rfl
  | case2 => rfl
  | case3 rest2 ih =>
    rw [replaceEscapedSpec.eq_def, hasGenuineEscape.eq_def]
    simp
  | case4 c2 rest2 hc2 ih =>
    rw [replaceEscapedSpec.eq_def, hasGenuineEscape.eq_def]
    simp [hc2, ih]
  | case5 c2 rest2 hc2 ih =>
    rw [replaceEscapedSpec.eq_def, hasGenuineEscape.eq_def]
    simp [hc2, ih]

lemma replaceEscapedSpec_no_backslash (e : Char) (n : List Char) :
    ∀ l : List Char, l.contains '\\' = false → replaceEscapedSpec e n l = (l, false) := by
  intro l
  induction l with
  | nil => intro _; rfl
  | cons c rest ih =>
    intro h
    rw [List.contains_cons] at h
    simp only [Bool.or_eq_false_iff] at h
    have hc : ¬ c = '\\' := by
      intro hcc
      rw [hcc] at h
      simp at h
    rw [replaceEscapedSpec.eq_def]
    simp [hc, ih h.2]

/-- C6: `replaceEscaped` replaces exactly the genuine escape sequences (a
backslash immediately followed by the target character, the backslash not
itself escaped) with the replacement text — stated as agreement with the
specification-side recursion `replaceEscapedSpec` — leaves a doubled
backslash followed by the target character unchanged, and its boolean
result is true iff at least one genuine escape was present. -/
theorem c6_replace_escaped :
    ∀ (s : String) (e : Char) (n : String),
      replaceEscaped s e n
          = (String.mk (replaceEscapedSpec e n.data s.data).1,
             (replaceEscapedSpec e n.data s.data).2)
        ∧ ((replaceEscaped s e n).2 = true ↔ hasGenuineEscape e s.data = true)
        ∧ (e ≠ '\\' → ∀ l : List Char,
            (replaceEscapedSpec e n.data ('\\' :: '\\' :: e :: l)).1
              = '\\' :: '\\' :: e :: (replaceEscapedSpec e n.data l).1) := by
  intro s e n
  refine ⟨replaceEscaped_eq_spec s e n, ?_, ?_⟩
  · rw [replaceEscaped_eq_spec]
    simp [replaceEscapedSpec_snd]
  · intro he l
    have hne : ¬ ('\\' : Char) = e := fun h => he h.symm
    rw [replaceEscapedSpec.eq_def]
    simp only [if_pos rfl, if_neg hne]
    rw [replaceEscapedSpec.eq_def]
    simp [he]

/-- Witness for C6 at a concrete input: the genuine tab escape in
`a\tb` is replaced while the doubled backslash before `t` shields it. -/
theorem c6_replace_escaped_w :
    replaceEscaped "a\\tb\\\\t" 't' "X"
        = (String.mk (replaceEscapedSpec 't' "X".data "a\\tb\\\\t".data).1,
           (replaceEscapedSpec 't' "X".data "a\\tb\\\\t".data).2)
      ∧ ((replaceEscaped "a\\tb\\\\t" 't' "X").2 = true
          ↔ hasGenuineEscape 't' "a\\tb\\\\t".data = true)
      ∧ (replaceEscapedSpec 't' "X".data ('\\' :: '\\' :: 't' :: [])).1
          = '\\' :: '\\' :: 't' :: (replaceEscapedSpec 't' "X".data []).1 :=
  ⟨(c6_replace_escaped "a\\tb\\\\t" 't' "X").1,
   (c6_replace_escaped "a\\tb\\\\t" 't' "X").2.1,
   (c6_replace_escaped "a\\tb\\\\t" 't' "X").2.2 (by decide) []⟩

/-- C10: when the scan of `replaceEscaped` terminates in the pre-match
state, the input ends in a backslash that did not complete an escape and
that trailing backslash is omitted (the result equals the result on the
input without its last character); an input containing no backslash at
all is returned unchanged with a false flag. -/
theorem c10_trailing_backslash :
    ∀ (e : Char) (n : String) (s : String),
      ((reRun e n.data ⟨.initP, [], [], false⟩ s.data).phase = .preMatchP →
          s.data.getLast? = some '\\'
            ∧ replaceEscaped s e n = replaceEscaped (String.mk s.data.dropLast) e n)
        ∧ (s.data.contains '\\' = false → replaceEscaped s e n = (s, false)) := by
  intro e n s
  constructor
  · intro hph
    rcases List.eq_nil_or_concat s.data with h0 | ⟨l, c, hlc⟩
    · rw [h0] at hph
      simp [reRun] at hph
    · rw [List.concat_eq_append] at hlc
      have hrun : reRun e n.data ⟨.initP, [], [], false⟩ s.data
          = reStep e n.data (reRun e n.data ⟨.initP, [], [], false⟩ l) c := by
        unfold reRun
        rw [hlc, List.foldl_append]
        rfl
      rw [hrun] at hph
      cases hp : (reRun e n.data ⟨.initP, [], [], false⟩ l).phase with
      | preMatchP =>
        by_cases hce : c = e
        · simp [reStep, hp, hce] at hph
        · simp [reStep, hp, hce] at hph
      | initP =>
        by_cases hcb : c = '\\'
        · subst hcb
          have hfin : reStep e n.data (reRun e n.data ⟨.initP, [], [], false⟩ l) '\\'
              = ⟨.preMatchP, (reRun e n.data ⟨.initP, [], [], false⟩ l).out, ['\\'],
                 (reRun e n.data ⟨.initP, [], [], false⟩ l).has⟩ := by
            simp [reStep, hp]
          constructor
          · rw [hlc, List.getLast?_concat]
          · show (String.mk (reRun e n.data ⟨.initP, [], [], false⟩ s.data).out,
                  (reRun e n.data ⟨.initP, [], [], false⟩ s.data).has) = _
            rw [hrun, hfin]
            have hdl : s.data.dropLast = l := by rw [hlc, List.dropLast_concat]
            show _ = (String.mk (reRun e n.data ⟨.initP, [], [], false⟩ s.data.dropLast).out,
                      (reRun e n.data ⟨.initP, [], [], false⟩ s.data.dropLast).has)
            rw [hdl]
        · simp [reStep, hp, hcb] at hph
      | matchP =>
        by_cases hcb : c = '\\'
        · subst hcb
          have hfin : reStep e n.data (reRun e n.data ⟨.initP, [], [], false⟩ l) '\\'
              = ⟨.preMatchP, (reRun e n.data ⟨.initP, [], [], false⟩ l).out, ['\\'],
                 (reRun e n.data ⟨.initP, [], [], false⟩ l).has⟩ := by
            simp [reStep, hp]
          constructor
          · rw [hlc, List.getLast?_concat]
          · show (String.mk (reRun e n.data ⟨.initP, [], [], false⟩ s.data).out,
                  (reRun e n.data ⟨.initP, [], [], false⟩ s.data).has) = _
            rw [hrun, hfin]
            have hdl : s.data.dropLast = l := by rw [hlc, List.dropLast_concat]
            show _ = (String.mk (reRun e n.data ⟨.initP, [], [], false⟩ s.data.dropLast).out,
                      (reRun e n.data ⟨.initP, [], [], false⟩ s.data.dropLast).has)
            rw [hdl]
        · simp [reStep, hp, hcb] at hph
  · intro h
    rw [replaceEscaped_eq_spec, replaceEscapedSpec_no_backslash e n.data s.data h]

/-- Witness for C10 at concrete inputs: `ab\` ends the scan in the
pre-match state and the trailing backslash is dropped; `xyz` has no
backslash and is unchanged. -/
theorem c10_trailing_backslash_w :
    (("ab\\" : String).data.getLast? = some '\\'
        ∧ replaceEscaped "ab\\" 'n' "Q"
            = replaceEscaped (String.mk ("ab\\" : String).data.dropLast) 'n' "Q")
      ∧ replaceEscaped "xyz" 'n' "Q" = ("xyz", false) :=
  ⟨(c10_trailing_backslash 'n' "Q" "ab\\").1 (by decide),
   (c10_trailing_backslash 'n' "Q" "xyz").2 (by decide)⟩

end ReplaceEscapedLemmas

section FormatLemmas

/-- C8: both required themes are provided: `ThemeNone` maps every token
kind to the neutral style list, which has no styling effect under
`Stylize`; `ThemeDefault` maps the type-name kind to exactly one style
(`Cyan`) and the error kind to exactly two compounded styles
(`Underline` then `Red`). -/
theorem c8_themes :
    (∀ t : TokenType, ThemeNone t = [None])
      ∧ (∀ (t : TokenType) (s : String), Stylize s (ThemeNone t) = s)
      ∧ ThemeDefault .TypeName = [Cyan]
      ∧ ThemeDefault .Error = [Underline, Red] := by
  refine ⟨fun _ => rfl, fun t s => ?_, rfl, rfl⟩
  simp [Stylize, ThemeNone, S, None]

/-- C4: a string containing an embedded double quote or a newline, and no
backquote, is rendered by `readableStr` as a raw backquote-quoted literal,
the text unescaped. -/
theorem c4_raw_literal :
    ∀ (d : Int) (s : String),
      (strContainsChar s '\n' || strContainsChar s '"') = true →
      strContainsChar s backquote = false →
      readableStr d s = some ("`" ++ s ++ "`") := by
  intro d s h1 h2
  have hc : rawCondition s = true := by
    unfold rawCondition
    rw [h1, h2]
    rfl
  simp [readableStr, hc]

/-- Witness for C4 at a concrete input containing a double quote. -/
theorem c4_raw_literal_w :
    ((strContainsChar "say \"hi\"" '\n' || strContainsChar "say \"hi\"" '"') = true
        ∧ strContainsChar "say \"hi\"" backquote = false)
      ∧ readableStr 0 "say \"hi\"" = some ("`" ++ "say \"hi\"" ++ "`") :=
  ⟨⟨by decide, by decide⟩, c4_raw_literal 0 "say \"hi\"" (by decide) (by decide)⟩

/-- C2 counterexample: the literal consisting of a newline and `test`
contains a newline and no backquote, so it takes the raw-literal path of
`readableStr`; the formatted output is a backquote literal, not a
string-concatenation continuation beginning with a quote-pair and plus. -/
theorem c2_newline_string_cex :
    Format [⟨.String, "\ntest"⟩] ThemeNone = some "`\ntest`"
      ∧ strStartsWith "`\ntest`" "\"\" +" = false := by
  constructor
  · rfl
  · decide

/-- C2 as amended: formatting the string token whose literal is a newline
followed by `test` (no styling, depth 0) produces the raw backquote
literal spanning the newline. -/
theorem c2_newline_string_raw :
    Format [⟨.String, "\ntest"⟩] ThemeNone = some ("`" ++ "\ntest" ++ "`") := rfl

/-- C7: at every position of the `Format` loop, a comma token is emitted
as its styled literal followed by a newline, and a colon or inline-comma
token is emitted as its styled literal followed by exactly one space and
no newline. -/
theorem c7_separators :
    ∀ (theme : Theme) (t : Token) (rest : List Token) (d : Int) (out : String),
      (t.Typ = .Comma →
        formatGo theme (t :: rest) d out
          = formatGo theme rest (stepDepth t rest d)
              (out ++ Stylize t.Literal (theme t.Typ) ++ "\n"))
      ∧ ((t.Typ = .Colon ∨ t.Typ = .InlineComma) →
        formatGo theme (t :: rest) d out
          = formatGo theme rest (stepDepth t rest d)
              (out ++ Stylize t.Literal (theme t.Typ) ++ " ")) := by
  intro theme t rest d out
  constructor
  · intro h
    simp [formatGo, emit, h]
  · intro h
    rcases h with h | h <;> simp [formatGo, emit, h]

/-- Witness for C7 at concrete comma and colon tokens under the default
theme. -/
theorem c7_separators_w :
    formatGo ThemeDefault [⟨.Comma, ","⟩] 0 ""
        = formatGo ThemeDefault [] (stepDepth ⟨.Comma, ","⟩ [] 0)
            ("" ++ Stylize "," (ThemeDefault (Token.mk .Comma ",").Typ) ++ "\n")
      ∧ formatGo ThemeDefault [⟨.Colon, ":"⟩] 0 ""
          = formatGo ThemeDefault [] (stepDepth ⟨.Colon, ":"⟩ [] 0)
              ("" ++ Stylize ":" (ThemeDefault (Token.mk .Colon ":").Typ) ++ " ") :=
  ⟨(c7_separators ThemeDefault ⟨.Comma, ","⟩ [] 0 "").1 rfl,
   (c7_separators ThemeDefault ⟨.Colon, ":"⟩ [] 0 "").2 (Or.inl rfl)⟩

/-- C9: a slice-item, map-key or struct-key token makes `Format` emit only
indentation (`depth` repetitions of the indent unit); the token's literal
is discarded — the emission does not depend on it. -/
theorem c9_item_indent :
    ∀ (theme : Theme) (k : TokenType) (lit : String) (rest : List Token) (d : Int) (out : String),
      (k = .SliceItem ∨ k = .MapKey ∨ k = .StructKey) →
        (formatGo theme (⟨k, lit⟩ :: rest) d out
            = match goRepeat indentUnit (stepDepth ⟨k, lit⟩ rest d) with
              | some ind => formatGo theme rest (stepDepth ⟨k, lit⟩ rest d) (out ++ ind)
              | none => none)
          ∧ ∀ lit' : String,
              formatGo theme (⟨k, lit⟩ :: rest) d out
                = formatGo theme (⟨k, lit'⟩ :: rest) d out := by
  intro theme k lit rest d out h
  have key : ∀ l : String,
      formatGo theme (⟨k, l⟩ :: rest) d out
        = match goRepeat indentUnit (stepDepth ⟨k, l⟩ rest d) with
          | some ind => formatGo theme rest (stepDepth ⟨k, l⟩ rest d) (out ++ ind)
          | none => none := by
    intro l
    rcases h with h | h | h <;>
      · subst h
        simp only [formatGo, emit]
        cases goRepeat indentUnit (stepDepth ⟨_, l⟩ rest d) <;> simp
  refine ⟨key lit, fun lit' => ?_⟩
  rw [key lit, key lit']
  have hsd : stepDepth ⟨k, lit⟩ rest d = stepDepth ⟨k, lit'⟩ rest d := rfl
  rw [hsd]

/-- Witness for C9 at a concrete map-key token: the literal is ignored
and only one indent unit is emitted at depth 1. -/
theorem c9_item_indent_w :
    formatGo ThemeNone [⟨.MapKey, "XYZ"⟩] 1 ""
        = formatGo ThemeNone [⟨.MapKey, "ABC"⟩] 1 ""
      ∧ formatGo ThemeNone [⟨.MapKey, "XYZ"⟩] 1 "" = some "    " := by
  refine ⟨(c9_item_indent ThemeNone .MapKey "XYZ" [] 1 "" (Or.inr (Or.inl rfl))).2 "ABC", ?_⟩
  rw [(c9_item_indent ThemeNone .MapKey "XYZ" [] 1 "" (Or.inr (Or.inl rfl))).1]
  rfl

end FormatLemmas

section PipelineLemmas

lemma mk_data (s : String) : String.mk s.data = s := rfl

lemma data_mk (l : List Char) : (String.mk l).data = l := rfl

/-- C5: for every string not taking the raw-literal path, `readableStr`
escapes special characters via Go quoting, rewrites genuine tab escapes
into literal tab characters, and rewrites every genuine newline escape
into a string-concatenation continuation: when any newline escape occurs
the result is prefixed by an empty quote pair, a plus, a newline and one
extra indent level, and each newline escape is followed by a closing
quote, a plus, a real newline, the deeper indentation and a reopening
quote — stated via the specification-side replacement recursion. -/
theorem c5_escape_pipeline :
    ∀ (d : Int) (s : String),
      rawCondition s = false →
      readableStr d s
        = (goRepeat indentUnit (d + 1)).map (fun indent =>
            let tabbed := String.mk (replaceEscapedSpec 't' "\t".data (goQuote s).data).1
            let cont := replaceEscapedSpec 'n' ("\\n\" +\n" ++ indent ++ "\"").data tabbed.data
            if cont.2 then "\"\" +\n" ++ indent ++ String.mk cont.1 else String.mk cont.1) := by
  intro d s h
  have hne : ¬ rawCondition s = true := by simp [h]
  unfold readableStr
  rw [if_neg hne]
  simp only [replaceEscaped_eq_spec, data_mk]

/-- Witness for C5 at a concrete input containing a newline and a
backquote, which takes the escape path and produces the continuation
with the quote-pair-plus prefix. -/
theorem c5_escape_pipeline_w :
    rawCondition "`\n" = false
      ∧ readableStr 0 "`\n" = some "\"\" +\n    \"`\\n\" +\n    \"\"" := by
  refine ⟨by decide, ?_⟩
  rw [c5_escape_pipeline 0 "`\n" (by decide)]
  rfl

end PipelineLemmas

section CollapseLemmas

lemma oneOf_opens_elim {ty : TokenType} (h : oneOf ty opens = true) :
    ty = .SliceOpen ∨ ty = .MapOpen ∨ ty = .StructOpen := by
  cases ty <;> simp_all [oneOf, opens]

lemma oneOf_closes_elim {ty : TokenType} (h : oneOf ty closes = true) :
    ty = .SliceClose ∨ ty = .MapClose ∨ ty = .StructClose := by
  cases ty <;> simp_all [oneOf, closes]

lemma goHasSuffix_brace_newline (out S1 : String) (h : goHasSuffix S1 "\x7b" = true) :
    goHasSuffix (out ++ S1 ++ "\n") "\x7b\n" = true := by
  unfold goHasSuffix at h ⊢
  rw [List.isSuffixOf_iff_suffix] at h ⊢
  obtain ⟨w, hw⟩ := h
  refine ⟨out.data ++ w, ?_⟩
  rw [String.data_append, String.data_append]
  rw [show ("\x7b\n" : String).data = ("\x7b" : String).data ++ ("\n" : String).data from rfl]
  rw [← hw]
  simp [List.append_assoc]

lemma goDropLastChar_append_newline (s : String) :
    goDropLastChar (s ++ "\n") = s := by
  unfold goDropLastChar
  rw [String.data_append]
  rw [show ("\n" : String).data = ['\n'] from rfl]
  rw [List.dropLast_concat]

/-- C1 as amended: whenever the styled open literal still ends in an open
brace (true of both provided themes, which style container tokens with
the neutral style, and of every tokenizer-produced open literal), an open
token immediately followed by a close token makes `Format` retract the
newline emitted after the open marker and splice the close marker
directly onto it, at any position, depth and continuation. -/
theorem c1_empty_collapse_amended :
    ∀ (theme : Theme) (t1 t2 : Token) (ts : List Token) (d : Int) (out : String),
      oneOf t1.Typ opens = true →
      oneOf t2.Typ closes = true →
      goHasSuffix (Stylize t1.Literal (theme t1.Typ)) "\x7b" = true →
      formatGo theme (t1 :: t2 :: ts) d out
        = formatGo theme ts (stepDepth t2 ts (stepDepth t1 (t2 :: ts) d))
            (out ++ Stylize t1.Literal (theme t1.Typ) ++ Stylize t2.Literal (theme t2.Typ)) := by
  intro theme t1 t2 ts d out h1 h2 h3
  have ho : ∀ dd : Int, emit theme t1 dd out
      = some (out ++ Stylize t1.Literal (theme t1.Typ) ++ "\n") := by
    intro dd
    rcases oneOf_opens_elim h1 with h | h | h <;> simp [emit, h]
  have hsfx : goHasSuffix (out ++ Stylize t1.Literal (theme t1.Typ) ++ "\n") "\x7b\n" = true :=
    goHasSuffix_brace_newline out _ h3
  have hc : ∀ dd : Int, emit theme t2 dd (out ++ Stylize t1.Literal (theme t1.Typ) ++ "\n")
      = some (out ++ Stylize t1.Literal (theme t1.Typ) ++ Stylize t2.Literal (theme t2.Typ)) := by
    intro dd
    rcases oneOf_closes_elim h2 with h | h | h <;>
      · simp only [emit, h]
        rw [if_pos hsfx]
        rw [goDropLastChar_append_newline]
  have e1 : formatGo theme (t1 :: t2 :: ts) d out
      = formatGo theme (t2 :: ts) (stepDepth t1 (t2 :: ts) d)
          (out ++ Stylize t1.Literal (theme t1.Typ) ++ "\n") := by
    simp only [formatGo]
    rw [ho]
  rw [e1]
  simp only [formatGo]
  rw [hc]

/-- Witness for C1 at a concrete empty map under the no-styling theme. -/
theorem c1_empty_collapse_w :
    formatGo ThemeNone [⟨.MapOpen, "map[int]int\x7b"⟩, ⟨.MapClose, "\x7d"⟩] 0 ""
      = formatGo ThemeNone []
          (stepDepth ⟨.MapClose, "\x7d"⟩ []
            (stepDepth ⟨.MapOpen, "map[int]int\x7b"⟩ [⟨.MapClose, "\x7d"⟩] 0))
          ("" ++ Stylize "map[int]int\x7b" (ThemeNone .MapOpen)
            ++ Stylize "\x7d" (ThemeNone .MapClose)) :=
  c1_empty_collapse_amended ThemeNone ⟨.MapOpen, "map[int]int\x7b"⟩ ⟨.MapClose, "\x7d"⟩ [] 0 ""
    (by decide) (by decide) (by decide)

/-- C1 counterexample: under a theme that wraps container tokens in
visible markers, the styled output no longer ends in an open brace plus
newline, the suffix check fails, and the interior newline of an empty
container survives — refuting the claim for every theme. -/
theorem c1_empty_collapse_cex :
    Format [⟨.MapOpen, "\x7b"⟩, ⟨.MapClose, "\x7d"⟩] badTheme
        = some "<b>\x7b</b>\n<b>\x7d</b>"
      ∧ strContainsChar "<b>\x7b</b>\n<b>\x7d</b>" '\n' = true := by
  constructor
  · rfl
  · decide

end CollapseLemmas

section TotalityLemmas

lemma opens_closes_disjoint (ty : TokenType) :
    oneOf ty opens = true → oneOf ty closes = false := by
  cases ty <;> decide

lemma opensCount_cons (t : Token) (ts : List Token) :
    opensCount (t :: ts) = opensCount ts + (if oneOf t.Typ opens then 1 else 0) := by
  simp [opensCount, List.countP_cons]

lemma closesCount_cons (t : Token) (ts : List Token) :
    closesCount (t :: ts) = closesCount ts + (if oneOf t.Typ closes then 1 else 0) := by
  simp [closesCount, List.countP_cons]

lemma opensCount_append (a b : List Token) :
    opensCount (a ++ b) = opensCount a + opensCount b := by
  simp [opensCount, List.countP_append]

lemma closesCount_append (a b : List Token) :
    closesCount (a ++ b) = closesCount a + closesCount b := by
  simp [closesCount, List.countP_append]

lemma opensCount_singleton (t : Token) :
    opensCount [t] = (if oneOf t.Typ opens then 1 else 0) := by
  simp [opensCount, List.countP_cons, List.countP_nil]

lemma closesCount_singleton (t : Token) :
    closesCount [t] = (if oneOf t.Typ closes then 1 else 0) := by
  simp [closesCount, List.countP_cons, List.countP_nil]

lemma closesCount_nil : closesCount ([] : List Token) = 0 := rfl

lemma opensCount_nil : opensCount ([] : List Token) = 0 := rfl

lemma readableStr_isSome (d : Int) (s : String) (hd : 0 ≤ d) :
    (readableStr d s).isSome = true := by
  unfold readableStr
  split
  · rfl
  · have hnn : ¬ (d + 1 < 0) := by omega
    simp [goRepeat, hnn]

lemma emit_isSome (theme : Theme) (t : Token) (d : Int) (out : String) (hd : 0 ≤ d) :
    (emit theme t d out).isSome = true := by
  unfold emit
  have hnn : ¬ (d < 0) := by omega
  cases t.Typ <;>
    simp [goRepeat, hnn, Option.isSome_map, readableStr_isSome d _ hd] <;>
    split <;> simp

lemma depthInv_formatGo (theme : Theme) :
    ∀ (ts : List Token) (d : Int) (out : String),
      depthInv d ts → (formatGo theme ts d out).isSome = true := by
  intro ts
  induction ts with
  | nil => intro d out _; rfl
  | cons t rest ih =>
    intro d out h
    obtain ⟨h0, hrest⟩ := h
    simp only [formatGo]
    have he := emit_isSome theme t (stepDepth t rest d) out h0
    obtain ⟨o2, ho2⟩ := Option.isSome_iff_exists.mp he
    rw [ho2]
    exact ih (stepDepth t rest d) o2 hrest

lemma dyck_all (ts : List Token) (h : wellFormed ts) :
    ∀ k, closesCount (ts.take k) ≤ opensCount (ts.take k) := by
  intro k
  by_cases hk : k ≤ ts.length
  · exact h.1 k hk
  · have he : ts.take k = ts := List.take_of_length_le (by omega)
    rw [he]
    have h2 := h.1 ts.length (le_refl _)
    rw [List.take_length] at h2
    exact h2

lemma stepDepth_nil (t : Token) (d : Int) :
    stepDepth t [] d = (if oneOf t.Typ opens then d + 1 else d) := rfl

lemma stepDepth_cons (t t2 : Token) (r2 : List Token) (d : Int) :
    stepDepth t (t2 :: r2) d
      = (if oneOf t2.Typ closes then (if oneOf t.Typ opens then d + 1 else d) - 1
         else (if oneOf t.Typ opens then d + 1 else d)) := rfl

lemma dyck_tail (ts : List Token)
    (H : ∀ k, closesCount (ts.take k) ≤ opensCount (ts.take k)) :
    ∀ k, (closesCount ((ts.drop 1).take k) : Int) ≤ (opensCount (ts.take k) : Int) := by
  cases ts with
  | nil => intro k; simp [closesCount, opensCount]
  | cons t0 r =>
    intro k
    cases k with
    | zero => simp [closesCount, opensCount]
    | succ j =>
      have h1 := H (j + 1)
      have h2 := H (j + 2)
      rw [show (t0 :: r).take (j + 1) = t0 :: r.take j from rfl,
        closesCount_cons, opensCount_cons] at h1
      rw [show (t0 :: r).take (j + 2) = t0 :: r.take (j + 1) from rfl, List.take_succ,
        closesCount_cons, opensCount_cons, closesCount_append, opensCount_append] at h2
      rw [show (t0 :: r).drop 1 = r from rfl, List.take_succ, closesCount_append,
        show (t0 :: r).take (j + 1) = t0 :: r.take j from rfl, opensCount_cons]
      cases hx : r[j]? with
      | none =>
        rw [hx] at h2
        simp only [Option.toList_none, Option.toList_some, closesCount_nil, opensCount_nil,
          closesCount_singleton, opensCount_singleton, List.append_nil] at h2 ⊢
        omega
      | some x =>
        rw [hx] at h2
        simp only [Option.toList_none, Option.toList_some, closesCount_nil, opensCount_nil,
          closesCount_singleton, opensCount_singleton] at h2 ⊢
        by_cases hxo : oneOf x.Typ opens = true
        · have hxc := opens_closes_disjoint x.Typ hxo
          rw [hxc] at h2 ⊢
          simp only [Bool.false_eq_true, if_false] at h2 ⊢
          omega
        · rw [Bool.not_eq_true] at hxo
          rw [hxo] at h2
          simp only [Bool.false_eq_true, if_false] at h2
          omega

lemma inv_depthInv :
    ∀ (ts : List Token) (d : Int),
      (∀ k, (closesCount ((ts.drop 1).take k) : Int) ≤ d + (opensCount (ts.take k) : Int)) →
      depthInv d ts := by
  intro ts
  induction ts with
  | nil => intro d _; trivial
  | cons t r ih =>
    intro d H
    have h1 := H 1
    rw [show (t :: r).drop 1 = r from rfl,
      show (t :: r).take 1 = [t] from rfl, opensCount_singleton] at h1
    have hnn : 0 ≤ stepDepth t r d := by
      cases r with
      | nil =>
        rw [stepDepth_nil]
        rw [show List.take 1 ([] : List Token) = [] from rfl,
          show closesCount ([] : List Token) = 0 from rfl] at h1
        split_ifs at h1 ⊢ <;> omega
      | cons t2 r2 =>
        rw [stepDepth_cons]
        rw [show (t2 :: r2).take 1 = [t2] from rfl, closesCount_singleton] at h1
        split_ifs at h1 ⊢ <;> omega
    refine ⟨hnn, ?_⟩
    cases r with
    | nil => trivial
    | cons t2 r2 =>
      apply ih
      intro k
      have hk := H (k + 1)
      rw [show (t :: t2 :: r2).drop 1 = t2 :: r2 from rfl,
        show (t2 :: r2).take (k + 1) = t2 :: r2.take k from rfl,
        show (t :: t2 :: r2).take (k + 1) = t :: (t2 :: r2).take k from rfl,
        closesCount_cons, opensCount_cons] at hk
      rw [show (t2 :: r2).drop 1 = r2 from rfl, stepDepth_cons]
      split_ifs at hk ⊢ <;> omega

/-- C3: `Format` is total on well-formed input: for every token sequence
whose container open and close tokens are balanced (closes never
outnumber opens in a prefix), the threaded depth counter stays
non-negative, the negative-repeat-count (panic) branch is never reached,
and `Format` returns a string. -/
theorem c3_format_total :
    ∀ (ts : List Token) (theme : Theme), wellFormed ts → ∃ s, Format ts theme = some s := by
  intro ts theme h
  have hdy := dyck_all ts h
  have hinv := inv_depthInv ts 0 (by
    intro k
    have hdt := dyck_tail ts hdy k
    omega)
  have hs := depthInv_formatGo theme ts 0 "" hinv
  exact Option.isSome_iff_exists.mp hs

/-- Witness for C3 at a concrete well-formed sequence (an empty map). -/
theorem c3_format_total_w :
    (Format [⟨.MapOpen, "map[int]int\x7b"⟩, ⟨.MapClose, "\x7d"⟩] ThemeNone).isSome = true := by
  obtain ⟨s, hs⟩ := c3_format_total
    [⟨.MapOpen, "map[int]int\x7b"⟩, ⟨.MapClose, "\x7d"⟩] ThemeNone (by
      constructor
      · decide
      · decide)
  rw [hs]
  rfl

end TotalityLemmas

end gop
